import Mathlib

/-!
Verification of the inverse-kinematics core of `src/InverseKinematics.hpp`
(namespace `RML`): the pose-error cost, its forward-mode dual-number
Jacobian, the configuration variable set, the example constraint set and
the solve driver.  Machine scalars are modelled by `ℝ`; the autodiff dual
scalar `autodiff::dual` is modelled by the Mathlib type `DualNumber ℝ`
(`TrivSqZeroExt ℝ ℝ`).  Eigen dynamic vectors, whose length is a run-time
quantity, are modelled by `List ℝ` where the length matters and by
`Matrix (Fin n) (Fin 1)` where the code fixes the dimension.  Out-of-bounds
Eigen coefficient access is modelled by `Option`.
-/

namespace RML

/-- A rigid transform (`Eigen::Transform<α, 3, Eigen::Affine>`): a 3x3 linear
part and a 3x1 translation, over the scalar type `α`. -/
structure AffineT (α : Type) where
  linear : Matrix (Fin 3) (Fin 3) α
  translation : Matrix (Fin 3) (Fin 1) α

/-- Entrywise scalar conversion of a transform (the implicit
`Scalar -> AutoDiffType` promotions at lines 187/192/210 of the source). -/
def AffineT.map {α β : Type} (f : α → β) (H : AffineT α) : AffineT β :=
  { linear := H.linear.map f, translation := H.translation.map f }

/-- The rotation residual `R_v_r = Rst_desired * Rst_current.transpose()`
(line 197 of the source). -/
def R_v_r {α : Type} [CommRing α] (Rst_desired Rst_current : Matrix (Fin 3) (Fin 3) α) :
    Matrix (Fin 3) (Fin 3) α :=
  Rst_desired * Rst_current.transpose

/-- The orientation error scalar
`(Identity - R_v_r).diagonal().sum()` (line 198 of the source), i.e. the
trace of `I - R_v_r`. -/
def orientation_error {α : Type} [CommRing α]
    (Rst_desired Rst_current : Matrix (Fin 3) (Fin 3) α) : α :=
  Matrix.trace ((1 : Matrix (Fin 3) (Fin 3) α) - R_v_r Rst_desired Rst_current)

/-- The pose-error cost `IKCost::cost` (lines 178-214 of the source),
polymorphic in the scalar type `α` (`AutoDiffType` in the source) exactly as
the C++ template is.  The forward-kinematics evaluator (line 184) lives in
`ForwardKinematics.hpp`, outside the analysed sources, and is taken as the
function argument `fk`.  The desired pose is real-typed and promoted
entrywise, as in the source.  The roll-pitch-yaw decompositions computed at
lines 186-194 are dead values: neither `Theta_st_current` nor
`Theta_st_desired` occurs in the returned expression, so they are omitted. -/
def IKCost.cost {n : ℕ} {α : Type} [CommRing α] [Algebra ℝ α]
    (fk : Matrix (Fin n) (Fin 1) α → AffineT α)
    (q : Matrix (Fin n) (Fin 1) α)
    (desired_pose : AffineT ℝ) : Matrix (Fin 1) (Fin 1) α :=
  let Hst_current : AffineT α := fk q
  let Rst_current : Matrix (Fin 3) (Fin 3) α := Hst_current.linear
  let Rst_desired : Matrix (Fin 3) (Fin 3) α := desired_pose.linear.map (algebraMap ℝ α)
  let o_error : Matrix (Fin 1) (Fin 1) α :=
    Matrix.of fun _ _ => orientation_error Rst_desired Rst_current
  let W : Matrix (Fin n) (Fin n) α := 1
  let K : Matrix (Fin 3) (Fin 3) α := 1
  let dt : Matrix (Fin 3) (Fin 1) α :=
    Hst_current.translation - desired_pose.translation.map (algebraMap ℝ α)
  dt.transpose * ((1 : α) • K) * dt
    + (algebraMap ℝ α 1e-6 • q.transpose) * W * q
    + ((50 : α) • o_error) * o_error

/-- The scalar type `autodiff::dual`: forward-mode dual numbers over the
reals, as the Mathlib type `DualNumber ℝ = TrivSqZeroExt ℝ ℝ` (value part `fst`,
derivative part `snd`). -/
abbrev dual : Type := DualNumber ℝ

/-- The dual-number configuration for the `i`-th forward-mode sweep: value
part the current `q`, derivative part the `i`-th unit seed (the `wrt(q_auto)`
seeding performed by `autodiff::jacobian` at line 244 of the source). -/
def dualSeed {n : ℕ} (q : Matrix (Fin n) (Fin 1) ℝ) (i : Fin n) :
    Matrix (Fin n) (Fin 1) dual :=
  Matrix.of fun j _ => ⟨q j 0, if j = i then 1 else 0⟩

/-- The configuration with its `i`-th entry replaced by `t`: the path along
which the `i`-th partial derivative of the cost is taken. -/
def updQ {n : ℕ} (q : Matrix (Fin n) (Fin 1) ℝ) (i : Fin n) (t : ℝ) :
    Matrix (Fin n) (Fin 1) ℝ :=
  Matrix.of fun j _ => if j = i then t else q j 0

/-- Source method `IKCost::GetCost` (lines 220-229): reads the real-valued
configuration from the variable set, promotes it entrywise to the dual
scalar type (zero derivative part), evaluates `cost` with the dual-typed
model `fkD`, and returns the value part `val(cost_val(0, 0))`. -/
noncomputable def IKCost.GetCost {n : ℕ} (fkD : Matrix (Fin n) (Fin 1) dual → AffineT dual)
    (desired_pose : AffineT ℝ) (qv : Matrix (Fin n) (Fin 1) ℝ) : ℝ :=
  TrivSqZeroExt.fst
    ((IKCost.cost fkD (qv.map (algebraMap ℝ dual)) desired_pose) 0 0)

/-- Source method `IKCost::FillJacobianBlock` (lines 234-252): under the name
guard `var_set == "configuration_vector"`, fills the 1 x n_q block with the
forward-mode dual-number Jacobian of `cost` (`autodiff::jacobian`, one
unit-seeded sweep per independent variable); `none` models a block left
untouched for any other variable-set name. -/
noncomputable def IKCost.FillJacobianBlock {n : ℕ}
    (fkD : Matrix (Fin n) (Fin 1) dual → AffineT dual)
    (desired_pose : AffineT ℝ) (var_set : String)
    (qv : Matrix (Fin n) (Fin 1) ℝ) : Option (Matrix (Fin 1) (Fin n) ℝ) :=
  if var_set = "configuration_vector" then
    some (Matrix.of fun _ i =>
      TrivSqZeroExt.snd ((IKCost.cost fkD (dualSeed qv i) desired_pose) 0 0))
  else
    none

/-- A dual number `d` represents, at the point `x0`, the value and the
derivative of the real function `f`: its value part equals `f x0` and `f`
has its derivative part as derivative at `x0`.  Dual arithmetic preserves
this representation through the operations used by the cost. -/
def IsDualAt (x0 : ℝ) (f : ℝ → ℝ) (d : dual) : Prop :=
  TrivSqZeroExt.fst d = f x0 ∧ HasDerivAt f (TrivSqZeroExt.snd d) x0

/-- Modelled from the spec: the robot model (`RobotModel.hpp` is outside the
analysed sources) as consumed by this core: it "owns link/joint topology and
`n_q`" and supports a structural cast to another scalar type.  The scalar
parameter is phantom here because only `n_q` and the link names are consumed
by the analysed code. -/
structure RobotModel (α : Type) where
  n_q : ℕ
  link_names : List String

/-- Modelled from the spec: the structural cast `model->cast<S>()` — the same
topology reinstantiated over another scalar type (line 273 of the source). -/
def RobotModel.cast {α β : Type} (m : RobotModel α) : RobotModel β :=
  { n_q := m.n_q, link_names := m.link_names }

/-- The configuration variable set `IKVariables` (lines 31-80 of the source):
`rows` is the dimension registered with the base `VariableSet(_model->n_q,
name)`, `q` the stored Eigen dynamic vector, whose length is a run-time
quantity and is therefore a `List ℝ`. -/
structure IKVariables where
  rows : ℕ
  name : String
  q : List ℝ

/-- The `IKVariables` constructor (lines 39-44 of the source): registers
`_model->n_q` rows, then executes `q.resize(_model->n_q); q = q0;`.  The
Eigen assignment `q = q0` resizes `q` to the length of `q0`, so the stored vector
is exactly `q0`, whatever its length; no dimension check is performed. -/
def IKVariables.init (name : String) (model : RobotModel ℝ) (q0 : List ℝ) :
    IKVariables :=
  { rows := model.n_q, name := name, q := q0 }

/-- Source method `IKVariables::SetVariables` (lines 49-52): `q = qin`, an
unchecked wholesale Eigen assignment (which resizes to the length of `qin`). -/
def IKVariables.SetVariables (s : IKVariables) (qin : List ℝ) : IKVariables :=
  { s with q := qin }

/-- Source method `IKVariables::GetValues` (lines 58-61). -/
def IKVariables.GetValues (s : IKVariables) : List ℝ :=
  s.q

/-- Source method `IKVariables::GetBounds` (lines 67-75): one `(-M_PI, M_PI)`
pair per row of the variable set. -/
noncomputable def IKVariables.GetBounds (s : IKVariables) : List (ℝ × ℝ) :=
  List.replicate s.rows (-Real.pi, Real.pi)

/-- Source method `IKConstraint::GetValues` (lines 96-102):
`g(0) = pow(x(0), 2) + x(1)` over the values of the variable set named
`"var_set1"`; an out-of-bounds Eigen coefficient access is `none`. -/
def IKConstraint.GetValues (x : List ℝ) : Option ℝ :=
  match x[0]?, x[1]? with
  | some x0, some x1 => some (x0 ^ 2 + x1)
  | _, _ => none

/-- Source method `IKConstraint::FillJacobianBlock` (lines 119-131): under
the name guard `var_set == "var_set1"`, writes `jac(0,0) = 2*x(0)` and
`jac(0,1) = 1.0`; the `(0,1)` slot exists only when the variable set has at
least two components, so `none` models both an out-of-bounds access and a
block left untouched for an unmatched name. -/
def IKConstraint.FillJacobianBlock (var_set : String) (x : List ℝ) :
    Option (ℝ × ℝ) :=
  if var_set = "var_set1" then
    match x[0]?, x[1]? with
    | some x0, some _ => some (2 * x0, 1)
    | _, _ => none
  else
    none

/-- The ifopt/Ipopt options surface used by the solve driver. -/
structure IpoptOptions where
  linear_solver : String
  jacobian_approximation : String
  max_iter : ℕ
  acceptable_tol : ℝ

/-- The four `ipopt.SetOption` calls at lines 285-288 of the source. -/
def ipoptOptionsSet : IpoptOptions :=
  { linear_solver := "mumps", jacobian_approximation := "exact",
    max_iter := 250, acceptable_tol := 1e-9 }

/-- Modelled from the spec: `forward_kinematics(model, q, source, target)`
(consumed from `ForwardKinematics.hpp`, outside the analysed sources).  Per
the spec, a source or target link name not found in the model "must fail
fast with a descriptive error ... never silently return an identity
transform"; the geometric computation for known links is the abstract
argument `fk`. -/
def forward_kinematics {n : ℕ} {α : Type} (model : RobotModel α)
    (fk : Matrix (Fin n) (Fin 1) α → AffineT α)
    (q : Matrix (Fin n) (Fin 1) α)
    (source_link_name target_link_name : String) : Except String (AffineT α) :=
  if source_link_name ∉ model.link_names then
    Except.error ("Link " ++ source_link_name ++ " not found in model")
  else if target_link_name ∉ model.link_names then
    Except.error ("Link " ++ target_link_name ++ " not found in model")
  else
    Except.ok (fk q)

/-- The outcome of one `inverse_kinematics` call: the options the external
solver was configured with, and either the returned configuration or the
error that escaped from the first cost evaluation. -/
structure IKOutcome (n : ℕ) where
  options : IpoptOptions
  result : Except String (Matrix (Fin n) (Fin 1) ℝ)

/-- Source function `inverse_kinematics` (lines 264-293).  The external Ipopt
solver is the abstract argument `ipoptSolve`, consuming the options, the
cost callback and the seed.  The model is cast to the dual scalar type
(line 273).  The first act of the solver is to evaluate the cost at the seed
`q0`, which calls `forward_kinematics`; an unknown link name therefore
aborts the solve with that error before the solver iterates (`ipoptSolve`
is never consulted).  The options are the four hard-coded `SetOption`
calls; no parameter of this function can change them. -/
noncomputable def inverse_kinematics {n : ℕ} (model : RobotModel ℝ)
    (fkD : Matrix (Fin n) (Fin 1) dual → AffineT dual)
    (source_link_name target_link_name : String)
    (desired_pose : AffineT ℝ) (q0 : Matrix (Fin n) (Fin 1) ℝ)
    (ipoptSolve : IpoptOptions → (Matrix (Fin n) (Fin 1) ℝ → ℝ) →
      Matrix (Fin n) (Fin 1) ℝ → Matrix (Fin n) (Fin 1) ℝ) : IKOutcome n :=
  let autodiff_model : RobotModel dual := model.cast
  { options := ipoptOptionsSet,
    result :=
      match forward_kinematics autodiff_model fkD (q0.map (algebraMap ℝ dual))
          source_link_name target_link_name with
      | Except.error e => Except.error e
      | Except.ok _ =>
          Except.ok (ipoptSolve ipoptOptionsSet
            (IKCost.GetCost fkD desired_pose) q0) }

/-- A constant forward-kinematics map over the dual scalars (identity
rotation, zero translation), used to instantiate the autodiff theorems on a
concrete input. -/
def fkConstD : Matrix (Fin 1) (Fin 1) dual → AffineT dual :=
  fun _ => { linear := 1, translation := 0 }

/-- The real-typed counterpart of `fkConstD`. -/
def fkConstR : Matrix (Fin 1) (Fin 1) ℝ → AffineT ℝ :=
  fun _ => { linear := 1, translation := 0 }

/-- A concrete desired pose: identity rotation, zero translation. -/
def desiredW : AffineT ℝ :=
  { linear := 1, translation := 0 }

/-- A concrete one-dimensional configuration with value 2. -/
def qW : Matrix (Fin 1) (Fin 1) ℝ :=
  Matrix.of fun _ _ => 2

/-- The Jacobian block produced by `IKCost.FillJacobianBlock` on the
concrete instance `fkConstD`, `desiredW`, `qW`. -/
noncomputable def JW : Matrix (Fin 1) (Fin 1) ℝ :=
  Matrix.of fun _ i =>
    TrivSqZeroExt.snd ((IKCost.cost fkConstD (dualSeed qW i) desiredW) 0 0)

/-- The orientation error is `3` minus the correlation of the two rotation
matrices: expanding the trace of `I - Rst_desired * Rst_currentᵀ`. -/
theorem orientation_error_expand {α : Type} [CommRing α]
    (Rd Rc : Matrix (Fin 3) (Fin 3) α) :
    orientation_error Rd Rc =
      (3 : α) - ∑ i : Fin 3, ∑ k : Fin 3, Rd i k * Rc i k := by
  simp only [orientation_error, R_v_r, Matrix.trace, Matrix.diag_apply,
    Matrix.sub_apply, Matrix.one_apply_eq, Matrix.mul_apply, Matrix.transpose_apply,
    Finset.sum_sub_distrib]
  rw [Finset.sum_const]
  simp [Finset.card_univ]

/-- Entrywise value of the pose-error cost: the single entry is the squared
translation error plus `1e-6` times the squared norm of `q` plus `50` times
the squared orientation error. -/
theorem IKCost.cost_apply {n : ℕ} {α : Type} [CommRing α] [Algebra ℝ α]
    (fk : Matrix (Fin n) (Fin 1) α → AffineT α)
    (q : Matrix (Fin n) (Fin 1) α)
    (desired_pose : AffineT ℝ) (i j : Fin 1) :
    IKCost.cost fk q desired_pose i j =
      (∑ k : Fin 3,
        ((fk q).translation k 0 - algebraMap ℝ α (desired_pose.translation k 0)) *
        ((fk q).translation k 0 - algebraMap ℝ α (desired_pose.translation k 0)))
      + algebraMap ℝ α 1e-6 * (∑ m : Fin n, q m 0 * q m 0)
      + (50 : α) *
        (orientation_error (desired_pose.linear.map (algebraMap ℝ α)) (fk q).linear *
         orientation_error (desired_pose.linear.map (algebraMap ℝ α)) (fk q).linear) := by
  obtain rfl : i = 0 := Subsingleton.elim i 0
  obtain rfl : j = 0 := Subsingleton.elim j 0
  simp only [IKCost.cost, one_smul, Matrix.mul_one, Matrix.add_apply, Matrix.mul_apply,
    Matrix.smul_apply, Matrix.transpose_apply, Matrix.sub_apply, Matrix.map_apply,
    Matrix.of_apply, Matrix.one_apply, smul_eq_mul, Fin.sum_univ_one]
  congr 1
  · congr 1
    rw [Finset.mul_sum]
    apply Finset.sum_congr rfl
    intro m _
    ring
  · ring

/-- C1: for every configuration vector `q` of length `n_q`, the pose-error
cost returns a 1x1 matrix whose single entry equals the sum of three terms:
the translation term
`(Hst_current.translation - desired.translation)ᵀ * K * (Hst_current.translation - desired.translation)`
with `K` the 3x3 identity, the regularization term `qᵀ * (1e-6 * I) * q`,
and the orientation term `orientation_error * 50 * orientation_error`, in
the same scalar type `α` as `q` (`α` ranges over all commutative ℝ-algebras,
covering both the real and the dual instantiation). -/
theorem IKCost.cost_eq_translation_add_regularization_add_orientation
    {n : ℕ} {α : Type} [CommRing α] [Algebra ℝ α]
    (fk : Matrix (Fin n) (Fin 1) α → AffineT α)
    (q : Matrix (Fin n) (Fin 1) α) (desired_pose : AffineT ℝ) :
    IKCost.cost fk q desired_pose =
      Matrix.of fun _ _ =>
        (((fk q).translation - desired_pose.translation.map (algebraMap ℝ α)).transpose *
            (1 : Matrix (Fin 3) (Fin 3) α) *
            ((fk q).translation - desired_pose.translation.map (algebraMap ℝ α))) 0 0
        + (q.transpose * (algebraMap ℝ α 1e-6 • (1 : Matrix (Fin n) (Fin n) α)) * q) 0 0
        + orientation_error (desired_pose.linear.map (algebraMap ℝ α)) (fk q).linear *
            (50 : α) *
            orientation_error (desired_pose.linear.map (algebraMap ℝ α)) (fk q).linear := by
  ext i j
  rw [IKCost.cost_apply]
  simp only [Matrix.of_apply, Matrix.mul_one, Matrix.mul_smul, Matrix.smul_mul,
    Matrix.smul_apply, smul_eq_mul, Matrix.mul_apply, Matrix.transpose_apply,
    Matrix.sub_apply, Matrix.map_apply]
  congr 1
  · congr 1
    rw [Finset.mul_sum]
    apply Finset.sum_congr rfl
    intro m _
    ring
  · ring

/-- If a unit vector `(u, v, w)` has `u = 1` then the other two components
vanish. -/
theorem unit_row_diag_one {u v w : ℝ} (h : u * u + v * v + w * w = 1)
    (hu : u = 1) : v = 0 ∧ w = 0 := by
  subst hu
  have hv : v * v ≤ 0 := by nlinarith [mul_self_nonneg w]
  have hw : w * w ≤ 0 := by nlinarith [mul_self_nonneg v]
  exact ⟨mul_self_eq_zero.mp (le_antisymm hv (mul_self_nonneg v)),
    mul_self_eq_zero.mp (le_antisymm hw (mul_self_nonneg w))⟩

/-- C8: for every pair of 3D rotation matrices `Rst_current` and
`Rst_desired`, the orientation error `trace (I - R_v_r)` with
`R_v_r = Rst_desired * Rst_currentᵀ` is zero iff the two rotations
coincide. -/
theorem orientation_error_eq_zero_iff (Rd Rc : Matrix (Fin 3) (Fin 3) ℝ)
    (hd : Rd.transpose * Rd = 1) (_hddet : Rd.det = 1)
    (hc : Rc.transpose * Rc = 1) (_hcdet : Rc.det = 1) :
    orientation_error Rd Rc = 0 ↔ Rd = Rc := by
  have hc' : Rc * Rc.transpose = 1 := Matrix.mul_eq_one_comm.mp hc
  have hd' : Rd * Rd.transpose = 1 := Matrix.mul_eq_one_comm.mp hd
  constructor
  · intro h
    have hRv : (Rd * Rc.transpose) * (Rd * Rc.transpose).transpose = 1 := by
      rw [Matrix.transpose_mul, Matrix.transpose_transpose]
      calc Rd * Rc.transpose * (Rc * Rd.transpose)
          = Rd * (Rc.transpose * Rc) * Rd.transpose := by
            rw [Matrix.mul_assoc, Matrix.mul_assoc, Matrix.mul_assoc]
        _ = 1 := by rw [hc, Matrix.mul_one, hd']
    have hrow : ∀ a : Fin 3,
        ∑ k : Fin 3, (Rd * Rc.transpose) a k * (Rd * Rc.transpose) a k = 1 := by
      intro a
      have h1 : (Rd * Rc.transpose * (Rd * Rc.transpose).transpose) a a
          = (1 : Matrix (Fin 3) (Fin 3) ℝ) a a := by rw [hRv]
      rw [Matrix.one_apply_eq] at h1
      rw [← h1, Matrix.mul_apply]
      apply Finset.sum_congr rfl
      intro k _
      rw [Matrix.transpose_apply]
    have hsum : ∑ a : Fin 3, (Rd * Rc.transpose) a a = 3 := by
      rw [orientation_error_expand] at h
      have h3 : ∑ i : Fin 3, ∑ k : Fin 3, Rd i k * Rc i k = 3 := by linarith
      rw [← h3]
      apply Finset.sum_congr rfl
      intro a _
      simp [Matrix.mul_apply, Matrix.transpose_apply]
    have hle : ∀ a : Fin 3, (Rd * Rc.transpose) a a ≤ 1 := by
      intro a
      have h1 := hrow a
      have h2 : ((Rd * Rc.transpose) a a) * ((Rd * Rc.transpose) a a) ≤ 1 := by
        rw [← h1]
        exact Finset.single_le_sum
          (f := fun b => (Rd * Rc.transpose) a b * (Rd * Rc.transpose) a b)
          (fun b _ => mul_self_nonneg _) (Finset.mem_univ a)
      nlinarith
    rw [Fin.sum_univ_three] at hsum
    have e0 := hle 0
    have e1 := hle 1
    have e2 := hle 2
    have d0 : (Rd * Rc.transpose) 0 0 = 1 := by linarith
    have d1 : (Rd * Rc.transpose) 1 1 = 1 := by linarith
    have d2 : (Rd * Rc.transpose) 2 2 = 1 := by linarith
    have row0 := hrow 0
    have row1 := hrow 1
    have row2 := hrow 2
    rw [Fin.sum_univ_three] at row0 row1 row2
    have o01 : (Rd * Rc.transpose) 0 1 = 0 := (unit_row_diag_one row0 d0).1
    have o02 : (Rd * Rc.transpose) 0 2 = 0 := (unit_row_diag_one row0 d0).2
    have row1' : (Rd * Rc.transpose) 1 1 * (Rd * Rc.transpose) 1 1
        + (Rd * Rc.transpose) 1 0 * (Rd * Rc.transpose) 1 0
        + (Rd * Rc.transpose) 1 2 * (Rd * Rc.transpose) 1 2 = 1 := by linarith
    have o10 : (Rd * Rc.transpose) 1 0 = 0 := (unit_row_diag_one row1' d1).1
    have o12 : (Rd * Rc.transpose) 1 2 = 0 := (unit_row_diag_one row1' d1).2
    have row2' : (Rd * Rc.transpose) 2 2 * (Rd * Rc.transpose) 2 2
        + (Rd * Rc.transpose) 2 0 * (Rd * Rc.transpose) 2 0
        + (Rd * Rc.transpose) 2 1 * (Rd * Rc.transpose) 2 1 = 1 := by linarith
    have o20 : (Rd * Rc.transpose) 2 0 = 0 := (unit_row_diag_one row2' d2).1
    have o21 : (Rd * Rc.transpose) 2 1 = 0 := (unit_row_diag_one row2' d2).2
    have hRv1 : Rd * Rc.transpose = 1 := by
      ext a b
      fin_cases a <;> fin_cases b <;>
        simp [Matrix.one_apply, d0, d1, d2, o01, o02, o10, o12, o20, o21]
    calc Rd = Rd * 1 := (Matrix.mul_one Rd).symm
      _ = Rd * (Rc.transpose * Rc) := by rw [hc]
      _ = (Rd * Rc.transpose) * Rc := (Matrix.mul_assoc _ _ _).symm
      _ = 1 * Rc := by rw [hRv1]
      _ = Rc := Matrix.one_mul Rc
  · intro h
    subst h
    simp [orientation_error, R_v_r, hd']

/-- Dual addition represents the sum of the represented functions. -/
theorem IsDualAt.add {x0 : ℝ} {f g : ℝ → ℝ} {d e : dual}
    (hf : IsDualAt x0 f d) (hg : IsDualAt x0 g e) :
    IsDualAt x0 (fun t => f t + g t) (d + e) := by
  refine ⟨?_, ?_⟩
  · rw [TrivSqZeroExt.fst_add, hf.1, hg.1]
  · rw [TrivSqZeroExt.snd_add]
    exact hf.2.add hg.2

/-- Dual subtraction represents the difference of the represented
functions. -/
theorem IsDualAt.sub {x0 : ℝ} {f g : ℝ → ℝ} {d e : dual}
    (hf : IsDualAt x0 f d) (hg : IsDualAt x0 g e) :
    IsDualAt x0 (fun t => f t - g t) (d - e) := by
  refine ⟨?_, ?_⟩
  · rw [TrivSqZeroExt.fst_sub, hf.1, hg.1]
  · rw [TrivSqZeroExt.snd_sub]
    exact hf.2.sub hg.2

/-- Dual multiplication implements the product rule. -/
theorem IsDualAt.mul {x0 : ℝ} {f g : ℝ → ℝ} {d e : dual}
    (hf : IsDualAt x0 f d) (hg : IsDualAt x0 g e) :
    IsDualAt x0 (fun t => f t * g t) (d * e) := by
  refine ⟨?_, ?_⟩
  · rw [TrivSqZeroExt.fst_mul, hf.1, hg.1]
  · have h := hf.2.mul hg.2
    rw [TrivSqZeroExt.snd_mul, op_smul_eq_smul, smul_eq_mul, smul_eq_mul, hf.1, hg.1]
    have h2 : f x0 * TrivSqZeroExt.snd e + g x0 * TrivSqZeroExt.snd d =
        TrivSqZeroExt.snd d * g x0 + f x0 * TrivSqZeroExt.snd e := by ring
    rw [h2]
    exact h

/-- Dual finite sums represent sums of the represented functions. -/
theorem IsDualAt.sum {x0 : ℝ} {ι : Type} (s : Finset ι) {f : ι → ℝ → ℝ}
    {d : ι → dual} (h : ∀ a ∈ s, IsDualAt x0 (f a) (d a)) :
    IsDualAt x0 (fun t => ∑ a ∈ s, f a t) (∑ a ∈ s, d a) := by
  refine ⟨?_, ?_⟩
  · rw [TrivSqZeroExt.fst_sum]
    exact Finset.sum_congr rfl fun a ha => (h a ha).1
  · rw [TrivSqZeroExt.snd_sum]
    exact HasDerivAt.sum fun a ha => (h a ha).2

/-- The embedding of a real constant has zero derivative part and represents
the constant function. -/
theorem IsDualAt.const (x0 c : ℝ) :
    IsDualAt x0 (fun _ => c) (algebraMap ℝ dual c) := by
  refine ⟨?_, ?_⟩
  · rw [TrivSqZeroExt.algebraMap_eq_inl, TrivSqZeroExt.fst_inl]
  · rw [TrivSqZeroExt.algebraMap_eq_inl, TrivSqZeroExt.snd_inl]
    exact hasDerivAt_const x0 c

/-- The seeded configuration entry represents the corresponding coordinate
path: the `i`-th entry is the identity (seed `1`), every other entry the
constant (seed `0`). -/
theorem isDualAt_coord {n : ℕ} (q : Matrix (Fin n) (Fin 1) ℝ) (i j : Fin n) :
    IsDualAt (q i 0) (fun t => updQ q i t j 0) (dualSeed q i j 0) := by
  by_cases hji : j = i
  · subst hji
    refine ⟨?_, ?_⟩
    · simp [dualSeed, updQ]
    · simp only [dualSeed, updQ, Matrix.of_apply, if_pos rfl]
      exact hasDerivAt_id (q j 0)
  · refine ⟨?_, ?_⟩
    · simp [dualSeed, updQ, hji]
    · simp only [dualSeed, updQ, Matrix.of_apply, if_neg hji]
      exact hasDerivAt_const (q i 0) (q j 0)

/-- Forward-mode dual evaluation of the cost at the `i`-th unit-seeded
configuration represents both the value and the `i`-th partial derivative of
the real cost along the `i`-th coordinate, provided the dual-typed forward
kinematics represents the real-typed one entrywise (the contract of the
structural model cast). -/
theorem IKCost.cost_isDualAt {n : ℕ}
    (fkD : Matrix (Fin n) (Fin 1) dual → AffineT dual)
    (fkR : Matrix (Fin n) (Fin 1) ℝ → AffineT ℝ)
    (desired_pose : AffineT ℝ) (qv : Matrix (Fin n) (Fin 1) ℝ) (i : Fin n)
    (hlin : ∀ a b, IsDualAt (qv i 0) (fun t => (fkR (updQ qv i t)).linear a b)
      ((fkD (dualSeed qv i)).linear a b))
    (htr : ∀ a, IsDualAt (qv i 0) (fun t => (fkR (updQ qv i t)).translation a 0)
      ((fkD (dualSeed qv i)).translation a 0)) :
    IsDualAt (qv i 0)
      (fun t => (IKCost.cost fkR (updQ qv i t) desired_pose) 0 0)
      ((IKCost.cost fkD (dualSeed qv i) desired_pose) 0 0) := by
  have h50 : IsDualAt (qv i 0) (fun _ => (50 : ℝ)) ((50 : dual)) := by
    have h := IsDualAt.const (qv i 0) 50
    rwa [map_ofNat] at h
  have h3 : IsDualAt (qv i 0) (fun _ => (3 : ℝ)) ((3 : dual)) := by
    have h := IsDualAt.const (qv i 0) 3
    rwa [map_ofNat] at h
  simp only [IKCost.cost_apply, orientation_error_expand, Matrix.map_apply,
    Algebra.id.map_eq_id, RingHom.id_apply]
  refine IsDualAt.add (IsDualAt.add ?_ ?_) ?_
  · exact IsDualAt.sum Finset.univ fun k _ =>
      ((htr k).sub (IsDualAt.const _ _)).mul ((htr k).sub (IsDualAt.const _ _))
  · exact (IsDualAt.const _ _).mul (IsDualAt.sum Finset.univ fun m _ =>
      (isDualAt_coord qv i m).mul (isDualAt_coord qv i m))
  · refine h50.mul (IsDualAt.mul ?_ ?_) <;>
      exact h3.sub (IsDualAt.sum Finset.univ fun a _ =>
        IsDualAt.sum Finset.univ fun b _ => (IsDualAt.const _ _).mul (hlin a b))

/-- C2: for every configuration of length `n_q`, when `FillJacobianBlock` is
called with the name `"configuration_vector"`, the `1 x n_q` block it writes
has in each column `i` exactly the partial derivative of the pose-error cost
with respect to `q_i`, obtained by forward-mode dual-number differentiation
of the same `cost` function used for the value (no finite differencing, no
separate gradient formula): column `i` is a true derivative of
`t ↦ cost(q with q_i := t)` at `q_i`, whenever the dual-typed forward
kinematics represents the real-typed one entrywise. -/
theorem IKCost.fillJacobianBlock_is_derivative {n : ℕ}
    (fkD : Matrix (Fin n) (Fin 1) dual → AffineT dual)
    (fkR : Matrix (Fin n) (Fin 1) ℝ → AffineT ℝ)
    (desired_pose : AffineT ℝ) (qv : Matrix (Fin n) (Fin 1) ℝ)
    (J : Matrix (Fin 1) (Fin n) ℝ)
    (hlin : ∀ i a b, IsDualAt (qv i 0) (fun t => (fkR (updQ qv i t)).linear a b)
      ((fkD (dualSeed qv i)).linear a b))
    (htr : ∀ i a, IsDualAt (qv i 0) (fun t => (fkR (updQ qv i t)).translation a 0)
      ((fkD (dualSeed qv i)).translation a 0))
    (hJ : IKCost.FillJacobianBlock fkD desired_pose "configuration_vector" qv = some J)
    (i : Fin n) :
    HasDerivAt (fun t => (IKCost.cost fkR (updQ qv i t) desired_pose) 0 0)
      (J 0 i) (qv i 0) := by
  have hJ2 : J = Matrix.of fun _ k =>
      TrivSqZeroExt.snd ((IKCost.cost fkD (dualSeed qv k) desired_pose) 0 0) := by
    rw [IKCost.FillJacobianBlock, if_pos rfl] at hJ
    exact (Option.some.inj hJ).symm
  have h := IKCost.cost_isDualAt fkD fkR desired_pose qv i (hlin i) (htr i)
  rw [hJ2]
  simpa [Matrix.of_apply] using h.2

/-- Witness for C2: on the concrete one-dimensional instance (constant
forward kinematics, configuration value 2) the filled Jacobian entry is a
true derivative of the real cost path. -/
theorem IKCost.fillJacobianBlock_is_derivative_witness :
    HasDerivAt (fun t => (IKCost.cost fkConstR (updQ qW 0 t) desiredW) 0 0)
      (JW 0 0) 2 := by
  have hlin : ∀ (i : Fin 1) (a b : Fin 3),
      IsDualAt (qW i 0) (fun t => (fkConstR (updQ qW i t)).linear a b)
        ((fkConstD (dualSeed qW i)).linear a b) := by
    intro i a b
    by_cases hab : a = b
    · subst hab
      refine ⟨?_, ?_⟩
      · simp [fkConstD, fkConstR, Matrix.one_apply_eq]
      · simp only [fkConstD, fkConstR, Matrix.one_apply_eq, TrivSqZeroExt.snd_one]
        exact hasDerivAt_const _ _
    · refine ⟨?_, ?_⟩
      · simp [fkConstD, fkConstR, Matrix.one_apply_ne hab]
      · simp only [fkConstD, fkConstR, Matrix.one_apply_ne hab, TrivSqZeroExt.snd_zero]
        exact hasDerivAt_const _ _
  have htr : ∀ (i : Fin 1) (a : Fin 3),
      IsDualAt (qW i 0) (fun t => (fkConstR (updQ qW i t)).translation a 0)
        ((fkConstD (dualSeed qW i)).translation a 0) := by
    intro i a
    refine ⟨?_, ?_⟩
    · simp [fkConstD, fkConstR]
    · simp only [fkConstD, fkConstR, Matrix.zero_apply, TrivSqZeroExt.snd_zero]
      exact hasDerivAt_const _ _
  have hJ : IKCost.FillJacobianBlock fkConstD desiredW "configuration_vector" qW
      = some JW := by
    rw [IKCost.FillJacobianBlock, if_pos rfl, JW]
  exact IKCost.fillJacobianBlock_is_derivative fkConstD fkConstR desiredW qW JW
    hlin htr hJ 0

/-- The scalar-polymorphic cost commutes with the promotion of a real
configuration into any commutative ℝ-algebra, provided the promoted forward
kinematics agrees with the promoted real forward kinematics at that
configuration. -/
theorem IKCost.cost_map_algebraMap {n : ℕ} {α : Type} [CommRing α] [Algebra ℝ α]
    (fkA : Matrix (Fin n) (Fin 1) α → AffineT α)
    (fkR : Matrix (Fin n) (Fin 1) ℝ → AffineT ℝ)
    (qv : Matrix (Fin n) (Fin 1) ℝ) (desired_pose : AffineT ℝ)
    (hfk : fkA (qv.map (algebraMap ℝ α)) = AffineT.map (algebraMap ℝ α) (fkR qv)) :
    IKCost.cost fkA (qv.map (algebraMap ℝ α)) desired_pose
      = (IKCost.cost fkR qv desired_pose).map (algebraMap ℝ α) := by
  ext i j
  rw [Matrix.map_apply, IKCost.cost_apply, IKCost.cost_apply, hfk]
  simp only [AffineT.map, Matrix.map_apply, orientation_error_expand,
    Algebra.id.map_eq_id, RingHom.id_apply, map_add, map_mul, map_sub, map_sum,
    map_ofNat]

/-- C3: `IKCost::GetCost` returns the plain real scalar value of the
pose-error cost at the current values of the variable set: the code evaluates the
dual-typed model at the zero-seeded dual promotion of the current values and
takes the value part, and that value provably equals the real-typed
evaluation of the same cost, whenever the dual-typed forward kinematics is
the promotion of the real-typed one at the current configuration (the
contract of the structural model cast). -/
theorem IKCost.getCost_eq_real_cost {n : ℕ}
    (fkD : Matrix (Fin n) (Fin 1) dual → AffineT dual)
    (fkR : Matrix (Fin n) (Fin 1) ℝ → AffineT ℝ)
    (desired_pose : AffineT ℝ) (qv : Matrix (Fin n) (Fin 1) ℝ)
    (hfk : fkD (qv.map (algebraMap ℝ dual))
      = AffineT.map (algebraMap ℝ dual) (fkR qv)) :
    IKCost.GetCost fkD desired_pose qv = (IKCost.cost fkR qv desired_pose) 0 0 := by
  rw [IKCost.GetCost, IKCost.cost_map_algebraMap fkD fkR qv desired_pose hfk,
    Matrix.map_apply]
  simp [TrivSqZeroExt.algebraMap_eq_inl]

/-- Witness for C3: on the concrete one-dimensional instance the value part
of the dual evaluation equals the real evaluation. -/
theorem IKCost.getCost_eq_real_cost_witness :
    IKCost.GetCost fkConstD desiredW qW = (IKCost.cost fkConstR qW desiredW) 0 0 := by
  refine IKCost.getCost_eq_real_cost fkConstD fkConstR desiredW qW ?_
  show ({ linear := 1, translation := 0 } : AffineT dual)
      = AffineT.map (algebraMap ℝ dual) { linear := 1, translation := 0 }
  rw [AffineT.map]
  congr 1
  exact (Matrix.map_one _ (map_zero _) (map_one _)).symm

/-- C4 (spec-modelled forward kinematics): if the source or the target link
name is not present in the robot model, every call to `inverse_kinematics`
— for every possible external solver `ipoptSolve` — ends with the
descriptive error raised by the first cost evaluation: the solver is never
consulted, no optimization iteration begins, and no configuration is ever
returned. -/
theorem inverse_kinematics_unknown_link_fails_fast {n : ℕ} (model : RobotModel ℝ)
    (fkD : Matrix (Fin n) (Fin 1) dual → AffineT dual)
    (source_link_name target_link_name : String)
    (desired_pose : AffineT ℝ) (q0 : Matrix (Fin n) (Fin 1) ℝ)
    (ipoptSolve : IpoptOptions → (Matrix (Fin n) (Fin 1) ℝ → ℝ) →
      Matrix (Fin n) (Fin 1) ℝ → Matrix (Fin n) (Fin 1) ℝ)
    (h : source_link_name ∉ model.link_names ∨
      target_link_name ∉ model.link_names) :
    (inverse_kinematics model fkD source_link_name target_link_name desired_pose
        q0 ipoptSolve).result =
      Except.error (if source_link_name ∉ model.link_names
        then "Link " ++ source_link_name ++ " not found in model"
        else "Link " ++ target_link_name ++ " not found in model") := by
  by_cases hs : source_link_name ∈ model.link_names
  · have ht : target_link_name ∉ model.link_names := by
      rcases h with h | h
      · exact absurd hs h
      · exact h
    simp [inverse_kinematics, forward_kinematics, RobotModel.cast, hs, ht]
  · simp [inverse_kinematics, forward_kinematics, RobotModel.cast, hs]

/-- Witness for C4: a concrete call with an unknown link name ("hand" not in
a model whose single link is named base) produces the descriptive error, for a
concrete solver function that is never consulted. -/
theorem inverse_kinematics_unknown_link_fails_fast_witness :
    (inverse_kinematics ⟨1, ["base"]⟩ fkConstD "hand" "hand" desiredW qW
        (fun _ _ q => q)).result =
      Except.error "Link hand not found in model" := by
  have h := inverse_kinematics_unknown_link_fails_fast ⟨1, ["base"]⟩ fkConstD
    "hand" "hand" desiredW qW (fun _ _ q => q) (Or.inl (by decide))
  rw [h, ite_self]
  congr 1

/-- C5 (code bug): supplying an initial guess or a variable update whose
length differs from `n_q` does not fail: the constructor executes
`q.resize(n_q); q = q0` and `SetVariables` executes `q = qin`, and the Eigen
assignments resize the stored vector, so a length-3 guess is silently
accepted by a 2-degree-of-freedom variable set and a length-1 update is
silently stored — there is no dimension-mismatch error at the boundary. -/
theorem IKVariables.accepts_wrong_dimension :
    (IKVariables.init "configuration_vector" ⟨2, []⟩ [1, 2, 3]).q = [1, 2, 3] ∧
    (IKVariables.init "configuration_vector" ⟨2, []⟩ [1, 2, 3]).rows = 2 ∧
    ((IKVariables.init "configuration_vector" ⟨2, []⟩ [1, 2, 3]).SetVariables
      [4]).q = [4] :=
  ⟨rfl, rfl, rfl⟩

/-- C6: `GetBounds` returns exactly `rows = n_q` bound pairs, each equal to
`(-π, +π)`, and the result does not depend on the current value of `q`. -/
theorem IKVariables.getBounds_pi (s : IKVariables) :
    (s.GetBounds).length = s.rows ∧
    (∀ b ∈ s.GetBounds, b = (-Real.pi, Real.pi)) ∧
    (∀ v : List ℝ, (s.SetVariables v).GetBounds = s.GetBounds) := by
  refine ⟨List.length_replicate _ _, ?_, fun v => rfl⟩
  intro b hb
  exact List.eq_of_mem_replicate hb

/-- Witness for C6: the bounds of a concrete 2-dimensional variable set. -/
theorem IKVariables.getBounds_pi_witness :
    (IKVariables.init "configuration_vector" ⟨2, ["l"]⟩ [0, 0]).GetBounds
      = [(-Real.pi, Real.pi), (-Real.pi, Real.pi)] := by
  obtain ⟨h1, h2, h3⟩ :=
    IKVariables.getBounds_pi (IKVariables.init "configuration_vector" ⟨2, ["l"]⟩ [0, 0])
  rfl

/-- C7: `SetVariables` followed by `GetValues` returns exactly the supplied
vector, for any vector of length `n_q`. -/
theorem IKVariables.set_get_roundtrip (s : IKVariables) (v : List ℝ)
    (_h : v.length = s.rows) : (s.SetVariables v).GetValues = v :=
  rfl

/-- Witness for C7: round trip through a concrete 2-dimensional set. -/
theorem IKVariables.set_get_roundtrip_witness :
    ((IKVariables.init "configuration_vector" ⟨2, ["l"]⟩ [0, 0]).SetVariables
      [5, 6]).GetValues = [5, 6] :=
  IKVariables.set_get_roundtrip _ [5, 6] rfl

/-- Witness for C8: at the identity rotations all four rotation hypotheses
hold and the equivalence specializes. -/
theorem orientation_error_eq_zero_iff_witness :
    orientation_error (1 : Matrix (Fin 3) (Fin 3) ℝ) 1 = 0 ↔
      (1 : Matrix (Fin 3) (Fin 3) ℝ) = 1 :=
  orientation_error_eq_zero_iff 1 1 (by simp) (by simp) (by simp) (by simp)

/-- C9 (amended): every call to `inverse_kinematics` configures the external
solver with the mumps linear solver, exact-Jacobian mode (no
finite-difference fallback), a maximum-iteration budget of 250 and an
acceptable-tolerance criterion of 1e-9; these are one hard-coded record,
identical for every call. -/
theorem inverse_kinematics_options_fixed {n : ℕ} (model : RobotModel ℝ)
    (fkD : Matrix (Fin n) (Fin 1) dual → AffineT dual)
    (source_link_name target_link_name : String)
    (desired_pose : AffineT ℝ) (q0 : Matrix (Fin n) (Fin 1) ℝ)
    (ipoptSolve : IpoptOptions → (Matrix (Fin n) (Fin 1) ℝ → ℝ) →
      Matrix (Fin n) (Fin 1) ℝ → Matrix (Fin n) (Fin 1) ℝ) :
    (inverse_kinematics model fkD source_link_name target_link_name desired_pose
      q0 ipoptSolve).options = ipoptOptionsSet ∧
    ipoptOptionsSet.jacobian_approximation = "exact" ∧
    ipoptOptionsSet.max_iter = 250 ∧
    ipoptOptionsSet.acceptable_tol = 1e-9 ∧
    ipoptOptionsSet.linear_solver = "mumps" :=
  ⟨rfl, rfl, rfl, rfl, rfl⟩

/-- C9 counterexample (refuting the overridability clause of the claim):
there is no caller input to the public entry point under which the solver is
configured with anything other than the hard-coded options record, so a
caller of `inverse_kinematics` cannot override the iteration budget, the
tolerance or the Jacobian mode. -/
theorem inverse_kinematics_options_not_overridable :
    ¬ ∃ (n : ℕ) (model : RobotModel ℝ)
      (fkD : Matrix (Fin n) (Fin 1) dual → AffineT dual)
      (source_link_name target_link_name : String)
      (desired_pose : AffineT ℝ) (q0 : Matrix (Fin n) (Fin 1) ℝ)
      (ipoptSolve : IpoptOptions → (Matrix (Fin n) (Fin 1) ℝ → ℝ) →
        Matrix (Fin n) (Fin 1) ℝ → Matrix (Fin n) (Fin 1) ℝ),
      (inverse_kinematics model fkD source_link_name target_link_name
        desired_pose q0 ipoptSolve).options ≠ ipoptOptionsSet := by
  rintro ⟨n, model, fkD, src, tgt, d, q0, s, hne⟩
  exact hne rfl

/-- C10: `IKConstraint::GetValues` and `IKConstraint::FillJacobianBlock`
unconditionally read components 0 and 1 of the `"var_set1"` variable set
(residual `x0^2 + x1`, Jacobian entries `2*x0` and `1`), so they are
well-defined exactly when that set has at least two components; for a
configuration vector of length less than 2 the access is out of bounds. -/
theorem IKConstraint.reads_first_two_components (x : List ℝ) :
    (2 ≤ x.length →
      IKConstraint.GetValues x = some ((x.getD 0 0) ^ 2 + x.getD 1 0) ∧
      IKConstraint.FillJacobianBlock "var_set1" x = some (2 * x.getD 0 0, 1)) ∧
    (x.length < 2 →
      IKConstraint.GetValues x = none ∧
      IKConstraint.FillJacobianBlock "var_set1" x = none) := by
  match x with
  | [] => exact ⟨fun h => by simp at h, fun _ => ⟨rfl, rfl⟩⟩
  | [a] => exact ⟨fun h => by simp at h, fun _ => ⟨rfl, rfl⟩⟩
  | a :: b :: t =>
    exact ⟨fun _ => ⟨by simp [IKConstraint.GetValues],
      by simp [IKConstraint.FillJacobianBlock]⟩,
      fun h => by rw [List.length_cons, List.length_cons] at h; omega⟩

/-- Witness for C10: concrete evaluations on a length-2 vector (both reads
defined) and on a length-1 vector (out of bounds). -/
theorem IKConstraint.reads_first_two_components_witness :
    IKConstraint.GetValues [3, 4] = some ((3 : ℝ) ^ 2 + 4) ∧
    IKConstraint.FillJacobianBlock "var_set1" [3, 4] = some (2 * 3, 1) ∧
    IKConstraint.GetValues [5] = none ∧
    IKConstraint.FillJacobianBlock "var_set1" [5] = none := by
  have h1 := (IKConstraint.reads_first_two_components [3, 4]).1 (by simp)
  have h2 := (IKConstraint.reads_first_two_components [5]).2 (by simp)
  refine ⟨?_, ?_, h2.1, h2.2⟩
  · simpa using h1.1
  · simpa using h1.2

end RML
